import Mathlib

/-!
Verification development for the Intervention reconnaissance orchestration
script (src/intervention.py).  The shallow embedding below models, from the
source:

* JSON-like records (Python dicts mapping string keys to values) as
  association lists with leftmost-key lookup, together with the Python
  update operation (in-place key overwrite, append when absent);
* the occurrence filter Intervention.analyze_results (lines 334-353);
* the technology-name normalization Intervention._normalize_tech_name
  (lines 131-142), with Python str.replace modelled by a leftmost
  non-overlapping replacement on character lists, Python str.lower by the
  ASCII Char.toLower (the script feeds it nuclei technology names), and
  str.strip by dropping from both ends;
* the dictionary loading Intervention._load_technologies (lines 106-129),
  with the anchored regex (.+?)_(short|long)\.txt modelled by its unique
  end-anchored decomposition, and the wordlist lookup
  Intervention._find_matching_dict (lines 144-172), with the Python
  substring test modelled by containsSeq;
* the per-URL orchestration core of Intervention.process_url
  (lines 368-398) as a fold over the technologies that obtained a
  wordlist and ffuf results (the external tool outputs are inputs of the
  model), and the saved JSON of Intervention._save_results (lines 403-421);
* the exception behavior of Intervention.detect_technologies
  (lines 174-282) — which raises AttributeError unconditionally at
  line 192, where the empty *string* bound at line 180 receives an
  .exists() call, before the try of line 214, so its subprocess routing
  of lines 214-281 is dead code (modelled separately as such) — and the
  exception routing of Intervention.run_ffuf (lines 323-332), with the
  subprocess outcome (success payload, timeout, tool-not-found) as an
  explicit input, sys.exit modelled as an error exit code, and an
  exception escaping a function modelled as a distinct outcome.

Stored wordlist paths are modelled by the file names handed to the loader
(the script stores str(file), i.e. the name prefixed by the directory,
and later displays Path(...).name; the directory prefix plays no role in
any claim).
-/

/-- Values of the JSON-like records the script manipulates (ffuf results
are flat objects of strings and numbers). -/
inductive JVal where
  | str : String → JVal
  | num : Int → JVal
deriving DecidableEq, Repr

/-- A Python dict with string keys, as an insertion-ordered association
list; lookup is leftmost, matching Python's unique-key invariant. -/
abbrev PyDict := List (String × JVal)

/-- Python dict update d[k] = v (also the merge step of the literal
expression with a double-splat, line 348-351): overwrite the entry in place when the key is
present, append it otherwise. -/
def dictSet (d : PyDict) (k : String) (v : JVal) : PyDict :=
  if (d.lookup k).isSome then
    d.map (fun kv => if kv.1 = k then (k, v) else kv)
  else
    d ++ [(k, v)]

/-- Expression result.get("length", 0) of lines 339 and 344. -/
def lengthOf (r : PyDict) : JVal :=
  (r.lookup "length").getD (JVal.num 0)

/-- Value length_counts[length] after the first loop of analyze_results
(lines 336-340): the number of input records whose length value equals v. -/
def lengthCount (results : List PyDict) (v : JVal) : Nat :=
  results.countP (fun r => lengthOf r == v)

/-- Intervention.analyze_results (lines 334-353): keep each record whose
length-class count is at most the occurrence threshold, merging in an
occurrence_count key.  The threshold is an int in Python (argparse
type=int), hence Int here. -/
def analyze_results (occurrence : Int) (results : List PyDict) : List PyDict :=
  results.filterMap (fun r =>
    let count := lengthCount results (lengthOf r)
    if (count : Int) ≤ occurrence then
      some (dictSet r "occurrence_count" (JVal.num count))
    else
      none)

/-! Technology-name normalization, _normalize_tech_name (lines 131-142). -/

/-- Single-character replacement of line 134 and 135 combined
(tech_name.replace(" ", "-").replace("_", "-")): a one-character pattern
with a one-character replacement is a character-wise map, and the second
replace cannot see any character the first produced besides the hyphen it
leaves unchanged. -/
def hyphenize (c : Char) : Char :=
  if c = ' ' ∨ c = '_' then '-' else c

/-- Python str.replace(pat, repl) on character lists: scan left to right,
replacing non-overlapping occurrences of pat, with explicit fuel (the
caller passes the list length, which bounds the number of steps).  An
empty pattern leaves the string unchanged (the script only uses nonempty
patterns). -/
def replaceAllAux (pat repl : List Char) : Nat → List Char → List Char
  | 0, s => s
  | _ + 1, [] => []
  | fuel + 1, c :: rest =>
    if pat.isEmpty then c :: rest
    else if pat.isPrefixOf (c :: rest) then
      repl ++ replaceAllAux pat repl fuel ((c :: rest).drop pat.length)
    else
      c :: replaceAllAux pat repl fuel rest

/-- Python str.replace(pat, repl), lines 136-140. -/
def replaceAll (pat repl s : List Char) : List Char :=
  replaceAllAux pat repl s.length s

/-- Python str.strip("-") of line 141: drop hyphens from both ends. -/
def stripDashes (s : List Char) : List Char :=
  ((s.dropWhile (fun c => c = '-')).reverse.dropWhile (fun c => c = '-')).reverse

/-- Intervention._normalize_tech_name (lines 131-142): lowercase, turn
spaces and underscores into hyphens, delete periods, delete "detect",
"detection", "-detect", "-detection" in that order, then strip hyphens
from both ends.  Lowercasing is ASCII (Char.toLower), matching Python on
the ASCII technology names the script handles. -/
def normalizeTechName (s : List Char) : List Char :=
  stripDashes
    (replaceAll ("-detection".data) []
      (replaceAll ("-detect".data) []
        (replaceAll ("detection".data) []
          (replaceAll ("detect".data) []
            (((s.map Char.toLower).map hyphenize).filter (fun c => ¬ c = '.'))))))

/-- String-level wrapper of _normalize_tech_name. -/
def normalizeStr (s : String) : String :=
  ⟨normalizeTechName s.data⟩

/-- Python substring test pat in s (used with `in` on line 164): some
suffix of s starts with pat. -/
def containsSeq (pat : List Char) : List Char → Bool
  | [] => pat.isEmpty
  | c :: rest => pat.isPrefixOf (c :: rest) || containsSeq pat rest

/-! Dictionary loading, _load_technologies (lines 106-129). -/

/-- The inner per-technology dict of tech_to_dict: at most one wordlist
path per dictionary type ("short" / "long"); those are the only keys the
loader ever writes. -/
structure TechDicts where
  short : Option String
  long : Option String
deriving DecidableEq, Repr

/-- Python test ty in inner_dict / access inner_dict[ty] for the inner
dicts of tech_to_dict, whose only possible keys are "short" and "long". -/
def getMode (d : TechDicts) (ty : String) : Option String :=
  if ty = "short" then d.short else if ty = "long" then d.long else none

/-- Write inner_dict[ty] = path (line 126).  The loader only ever passes
ty = "short" or ty = "long" (the regex admits nothing else). -/
def setModeEntry (d : TechDicts) (ty path : String) : TechDicts :=
  if ty = "short" then { d with short := some path }
  else if ty = "long" then { d with long := some path }
  else d

/-- Write tech_to_dict[k][ty] = path in the outer mapping: update the
entry of key k in place. -/
def setInMap (m : List (String × TechDicts)) (k ty path : String) :
    List (String × TechDicts) :=
  m.map (fun e => if e.1 = k then (e.1, setModeEntry e.2 ty path) else e)

/-- The anchored regex (.+?)_(short|long)\.txt of line 112 applied with
re.match to a file name: since the suffix is end-anchored and the two
admissible endings cannot both terminate the same name, a name matches
exactly when it ends in "_short.txt" or "_long.txt" with a nonempty,
newline-free stem in front (the regex dot does not match newlines);
group 1 is that stem and group 2 the dictionary type. -/
def parseDictFileName (name : String) : Option (String × String) :=
  let cs := name.data
  if ("_short.txt".data.isSuffixOf cs ∧ 10 < cs.length
      ∧ cs.all (fun c => ¬ c = '\n')) then
    some (⟨cs.take (cs.length - 10)⟩, "short")
  else if ("_long.txt".data.isSuffixOf cs ∧ 9 < cs.length
      ∧ cs.all (fun c => ¬ c = '\n')) then
    some (⟨cs.take (cs.length - 9)⟩, "long")
  else
    none

/-- One iteration of the loading loop of _load_technologies
(lines 115-126): skip names the regex rejects; otherwise register the
technology key (with an empty inner dict) when new, and store the file
as the wordlist of its type when the guard of line 125 holds. -/
def loadStep (mode : String) (m : List (String × TechDicts)) (file : String) :
    List (String × TechDicts) :=
  match parseDictFileName file with
  | none => m
  | some (tech, dtype) =>
    let m1 := if (m.lookup tech).isSome then m else m ++ [(tech, ⟨none, none⟩)]
    if dtype = mode ∨ (dtype = "long" ∧ mode = "long") then
      setInMap m1 tech dtype file
    else
      m1

/-- Intervention._load_technologies (lines 106-129): fold the loading
loop over the .txt file names found in the dictionary directory, in glob
order, starting from the empty mapping of the constructor (line 100). -/
def load_technologies (mode : String) (files : List String) :
    List (String × TechDicts) :=
  files.foldl (loadStep mode) []

/-! Wordlist lookup, _find_matching_dict (lines 144-172). -/

/-- The three-branch block repeated in _find_matching_dict
(lines 149-154, 158-163, 165-170): prefer the configured mode's entry,
then fall back to "long", then to "short"; yield none when the inner dict
holds nothing, in which case the function falls through. -/
def pickDict (mode : String) (d : TechDicts) : Option String :=
  if (getMode d mode).isSome then getMode d mode
  else if d.long.isSome then d.long
  else if d.short.isSome then d.short
  else none

/-- The scanning loop of _find_matching_dict (lines 156-170): walk the
mapping in insertion order; on an exact key match, or a substring match
in either direction, return the key's wordlist if it has one, otherwise
keep scanning. -/
def findLoop (mode normalized : String) :
    List (String × TechDicts) → Option String
  | [] => none
  | (tech, d) :: rest =>
    if normalized = tech then
      match pickDict mode d with
      | some p => some p
      | none => findLoop mode normalized rest
    else if containsSeq normalized.data tech.data
        || containsSeq tech.data normalized.data then
      match pickDict mode d with
      | some p => some p
      | none => findLoop mode normalized rest
    else
      findLoop mode normalized rest

/-- Intervention._find_matching_dict (lines 144-172): normalize the
detected name, try the exact key first (lines 148-154), then scan every
key (lines 156-170; the exact key is re-scanned there with the same
empty-handed outcome), returning None when nothing yields a wordlist. -/
def find_matching_dict (mode : String) (m : List (String × TechDicts))
    (tech_name : String) : Option String :=
  let normalized := normalizeStr tech_name
  match m.lookup normalized with
  | some d =>
    (match pickDict mode d with
     | some p => some p
     | none => findLoop mode normalized m)
  | none => findLoop mode normalized m

/-! Per-URL orchestration core of process_url (lines 368-398). -/

/-- Annotation loop of lines 387-389 applied to one analyzed record:
result["tech"] = tech and then result["dict_used"] = dictionary name. -/
def annotTechRec (tech dname : String) (r : PyDict) : PyDict :=
  dictSet (dictSet r "tech" (JVal.str tech)) "dict_used" (JVal.str dname)

/-- Analysis plus annotation for one technology (lines 385-389). -/
def processTech (occ : Int) (tech dname : String) (rs : List PyDict) :
    List PyDict :=
  (analyze_results occ rs).map (annotTechRec tech dname)

/-- One iteration of the technology loop of process_url (lines 371-395),
restricted to a technology that obtained a wordlist: given the
accumulated (all_results, tech_results_map) pair and the technology's
name, dictionary name and raw ffuf results, skip when ffuf returned
nothing (guard of line 384) or when analysis kept nothing (guard of
line 386); otherwise extend all_results and record the analyzed list
under the technology. -/
def processFold (occ : Int)
    (acc : List PyDict × List (String × List PyDict))
    (x : String × String × List PyDict) :
    List PyDict × List (String × List PyDict) :=
  if x.2.2.isEmpty then acc
  else
    let analyzed := processTech occ x.1 x.2.1 x.2.2
    if analyzed.isEmpty then acc
    else (acc.1 ++ analyzed, acc.2 ++ [(x.1, analyzed)])

/-- The (all_results, tech_results_map) state process_url reaches at
line 397, as a function of the per-technology runs. -/
def process_url_core (occ : Int)
    (techs : List (String × String × List PyDict)) :
    List PyDict × List (String × List PyDict) :=
  techs.foldl (processFold occ) ([], [])

/-- The wordlist-selection stage of the technology loop
(lines 371-382): each detected technology either obtains a wordlist via
_find_matching_dict and is run through ffuf (whose output is the oracle
argument), or is skipped by the continue of line 377. -/
def techRuns (mode : String) (m : List (String × TechDicts))
    (ffufOf : String → List PyDict) (techs : List String) :
    List (String × String × List PyDict) :=
  techs.filterMap (fun t =>
    match find_matching_dict mode m t with
    | none => none
    | some dp => some (t, dp, ffufOf t))

/-- Shape of the JSON object written by _save_results (lines 408-419). -/
structure SavedOutput where
  url : String
  mode : String
  occurrence_threshold : Int
  technologies_detected : List String
  results_by_tech : List (String × Nat)
  results : List PyDict
deriving Repr

/-- Intervention._save_results (lines 403-421): package the URL, mode,
threshold, the keys of tech_results_map, the per-technology result
counts, and the combined result list. -/
def save_results (url mode : String) (occ : Int)
    (st : List PyDict × List (String × List PyDict)) : SavedOutput :=
  { url := url
    mode := mode
    occurrence_threshold := occ
    technologies_detected := st.2.map (fun y => y.1)
    results_by_tech := st.2.map (fun y => (y.1, y.2.length))
    results := st.1 }

/-! Exception routing of the external tool wrappers. -/

/-- Outcome of a subprocess.run call: a successful return carrying the
data the wrapper goes on to read, expiry of the timeout argument
(subprocess.TimeoutExpired), or an absent binary (FileNotFoundError). -/
inductive ProcResult (α : Type) where
  | ok : α → ProcResult α
  | timeout : ProcResult α
  | notFound : ProcResult α

/-- Nested JSON values, for the nuclei output lines detect_technologies
parses (lines 234-260). -/
inductive Json where
  | str : String → Json
  | num : Int → Json
  | arr : List Json → Json
  | obj : List (String × Json) → Json
  | null : Json

/-- Expected string payload of a JSON field the script reads into
tech_name (a non-string there would raise inside normalization; the
model covers the well-typed nuclei output). -/
def jsonAsName : Json → Option String
  | Json.str s => some s
  | _ => none

/-- Extraction of a technology name from one parsed nuclei line
(lines 240-250): matcher-name first, else info.name, else the first
entry of a nonempty info.tags list. -/
def extractTechName (data : Json) : Option String :=
  match data with
  | Json.obj fields =>
    match fields.lookup "matcher-name" with
    | some v => jsonAsName v
    | none =>
      match fields.lookup "info" with
      | some (Json.obj info) =>
        (match info.lookup "name" with
         | some v => jsonAsName v
         | none =>
           match info.lookup "tags" with
           | some (Json.arr (t :: _)) => jsonAsName t
           | _ => none)
      | _ => none
  | _ => none

/-- Set insertion of detected.add (line 254) on a duplicate-free list. -/
def addTech (acc : List String) (t : String) : List String :=
  if t ∈ acc then acc else acc ++ [t]

/-- Parsing loop of detect_technologies over the stdout lines
(lines 234-260): a line whose json.loads failed (modelled as none) is
skipped; an extracted name is kept when truthy (nonempty), after
normalization. -/
def parseNucleiLines (lines : List (Option Json)) : List String :=
  lines.foldl (fun acc oline =>
    match oline with
    | none => acc
    | some data =>
      match extractTechName data with
      | none => acc
      | some name => if name = "" then acc else addTech acc (normalizeStr name))
    []

/-- Outcome of calling a Python function: a normal return value, a
sys.exit with a status code, or an exception escaping the function
uncaught (named by its class). -/
inductive PyOutcome (α : Type) where
  | ret : α → PyOutcome α
  | exit : Nat → PyOutcome α
  | exception : String → PyOutcome α
deriving Repr

/-- The subprocess routing of lines 206-281 of detect_technologies — the
code its timeout / not-found handlers belong to — as a function of the
subprocess outcome, with the nuclei templates present (the code returns
early at line 205 otherwise): on success the parsed technology set; on
timeout the warning of line 271 and the set gathered so far, which is
empty because parsing starts only after subprocess.run returns; on a
missing nuclei binary, sys.exit(1) (line 275).  This code is
unreachable in the real function: execution raises at line 192 before
the early return of line 205 and before the try of line 214, so this
definition models dead code and detect_technologies below models what
actually runs. -/
def detect_technologies_dead_branch
    (outcome : ProcResult (List (Option Json))) :
    Except Nat (List String) :=
  match outcome with
  | ProcResult.ok lines => Except.ok (parseNucleiLines lines)
  | ProcResult.timeout => Except.ok []
  | ProcResult.notFound => Except.error 1

/-- Intervention.detect_technologies (lines 174-282), as a function of
the subprocess outcome its try block would consult.  Lines 180-181 bind
exposures_path and exposed_panels_path to the empty *string*, and
line 192 evaluates exposures_path.exists() unconditionally — after the
two genuine Path checks of lines 184-191, but before the early return
of line 205 and before the try of line 214 (line 196 would do the same
at exposed_panels_path).  A str has no exists attribute, so every call
raises AttributeError there; no handler in the program catches it, the
subprocess is never launched, and the outcome argument is never
consulted. -/
def detect_technologies (_outcome : ProcResult (List (Option Json))) :
    PyOutcome (List String) :=
  PyOutcome.exception "AttributeError"

/-- Payload run_ffuf reads on a successful subprocess return
(lines 315-321): none when the output file does not exist, some none
when it exists without a "results" key, some (some rs) otherwise. -/
abbrev FfufPayload := Option (Option (List PyDict))

/-- Intervention.run_ffuf (lines 284-332), as a function of the
subprocess outcome: the parsed results on success (empty when the output
file is absent or lacks a "results" key), the empty list on timeout
(line 324 prints a warning and the function returns its initial
results = []), and sys.exit(1) when ffuf is not installed (line 327). -/
def run_ffuf (outcome : ProcResult FfufPayload) : Except Nat (List PyDict) :=
  match outcome with
  | ProcResult.ok (some (some rs)) => Except.ok rs
  | ProcResult.ok (some none) => Except.ok []
  | ProcResult.ok none => Except.ok []
  | ProcResult.timeout => Except.ok []
  | ProcResult.notFound => Except.error 1

/-! Lookup lemmas for the association-list model of Python dicts. -/

theorem lookup_append {β : Type} (a : String) (l1 l2 : List (String × β)) :
    (l1 ++ l2).lookup a =
      match l1.lookup a with
      | some b => some b
      | none => l2.lookup a := by
  induction l1 with
  | nil => simp
  | cons e l ih =>
    obtain ⟨k, b⟩ := e
    cases hab : (a == k) with
    | true => simp [List.lookup_cons, hab]
    | false => simp [List.lookup_cons, hab, ih]

theorem lookup_map_set {β : Type} (d : List (String × β)) (k : String) (v : β)
    (h : (d.lookup k).isSome) :
    (d.map (fun kv => if kv.1 = k then (k, v) else kv)).lookup k = some v := by
  induction d with
  | nil => simp at h
  | cons e l ih =>
    obtain ⟨k1, w⟩ := e
    by_cases hk : k1 = k
    · subst hk
      simp [List.lookup_cons]
    · have hbk : (k == k1) = false := by
        simp [beq_iff_eq]
        exact fun hkk => hk hkk.symm
      simp only [List.map_cons, if_neg hk, List.lookup_cons, hbk]
      apply ih
      simpa [List.lookup_cons, hbk] using h

theorem lookup_map_set_ne {β : Type} (d : List (String × β)) (k k' : String)
    (v : β) (h : ¬ k' = k) :
    (d.map (fun kv => if kv.1 = k then (k, v) else kv)).lookup k' =
      d.lookup k' := by
  induction d with
  | nil => simp
  | cons e l ih =>
    obtain ⟨k1, w⟩ := e
    by_cases hk : k1 = k
    · subst hk
      have hbk : (k' == k1) = false := by simpa [beq_iff_eq] using h
      simp [List.lookup_cons, hbk, ih]
    · cases hab : (k' == k1) with
      | true => simp [List.lookup_cons, hab, if_neg hk]
      | false => simp [List.lookup_cons, hab, if_neg hk, ih]

theorem lookup_dictSet_self (d : PyDict) (k : String) (v : JVal) :
    (dictSet d k v).lookup k = some v := by
  unfold dictSet
  by_cases h : (d.lookup k).isSome
  · simp only [if_pos h]
    exact lookup_map_set d k v h
  · simp only [if_neg h]
    rw [lookup_append]
    have hnone : d.lookup k = none := by
      cases hd : d.lookup k
      · rfl
      · exact absurd (by simp [hd]) h
    simp [hnone, List.lookup_cons]

theorem lookup_dictSet_ne (d : PyDict) (k k' : String) (v : JVal)
    (h : ¬ k' = k) :
    (dictSet d k v).lookup k' = d.lookup k' := by
  unfold dictSet
  by_cases hs : (d.lookup k).isSome
  · simp only [if_pos hs]
    exact lookup_map_set_ne d k k' v h
  · simp only [if_neg hs]
    rw [lookup_append]
    have hbk : (k' == k) = false := by simpa [beq_iff_eq] using h
    cases hd : d.lookup k'
    · simp [List.lookup_cons, hbk]
    · simp

/-! Characterization of analyze_results. -/

theorem filterMap_guard_eq {α β : Type} (p : α → Prop) [DecidablePred p]
    (f : α → β) (l : List α) :
    (l.filterMap (fun a => if p a then some (f a) else none)) =
      (l.filter (fun a => decide (p a))).map f := by
  induction l with
  | nil => rfl
  | cons a l ih =>
    by_cases h : p a
    · simp [List.filterMap_cons, List.filter_cons, h, ih]
    · simp [List.filterMap_cons, List.filter_cons, h, ih]

/-- Record annotation analyze_results applies to a kept record. -/
def annotCount (results : List PyDict) (r : PyDict) : PyDict :=
  dictSet r "occurrence_count" (JVal.num (lengthCount results (lengthOf r)))

theorem analyze_results_eq (occ : Int) (results : List PyDict) :
    analyze_results occ results =
      (results.filter
        (fun r => decide ((lengthCount results (lengthOf r) : Int) ≤ occ))).map
        (annotCount results) := by
  unfold analyze_results annotCount
  exact filterMap_guard_eq
    (fun r => (lengthCount results (lengthOf r) : Int) ≤ occ)
    (fun r => dictSet r "occurrence_count"
      (JVal.num (lengthCount results (lengthOf r)))) results

theorem mem_analyze_results (occ : Int) (results : List PyDict) (r' : PyDict) :
    r' ∈ analyze_results occ results ↔
      ∃ r ∈ results, (lengthCount results (lengthOf r) : Int) ≤ occ ∧
        r' = annotCount results r := by
  rw [analyze_results_eq]
  simp only [List.mem_map, List.mem_filter, decide_eq_true_eq]
  constructor
  · rintro ⟨r, ⟨hr, hocc⟩, rfl⟩
    exact ⟨r, hr, hocc, rfl⟩
  · rintro ⟨r, hr, hocc, rfl⟩
    exact ⟨r, ⟨hr, hocc⟩, rfl⟩

/-- Claim C1 (confirmed).  The occurrence filter returns exactly those
records whose response length appears at most occ times in the input
list — a record is kept iff the number of input records sharing its
length value is at most the threshold, and dropped iff it exceeds it —
and each returned record is its input record with an occurrence_count
field holding that number; the list equality also fixes the order. -/
theorem claim1_analyze_results_exact (occ : Int) (results : List PyDict) :
    analyze_results occ results =
      (results.filter
        (fun r => decide ((lengthCount results (lengthOf r) : Int) ≤ occ))).map
        (fun r => dictSet r "occurrence_count"
          (JVal.num (lengthCount results (lengthOf r)))) ∧
    (∀ r' : PyDict, r' ∈ analyze_results occ results ↔
      ∃ r ∈ results, (lengthCount results (lengthOf r) : Int) ≤ occ ∧
        r' = dictSet r "occurrence_count"
          (JVal.num (lengthCount results (lengthOf r)))) := by
  refine ⟨analyze_results_eq occ results, fun r' => ?_⟩
  simpa [annotCount] using mem_analyze_results occ results r'

/-! Claim C10: frame property of the occurrence filter. -/

/-- Input record that already carries an occurrence_count field. -/
def recWithCount : PyDict := [("length", JVal.num 1), ("occurrence_count", JVal.num 99)]

/-- Claim C10 counterexample.  On an input record that already has an
occurrence_count field, the filter overwrites that field (the analysis
merge replaces an existing key), so the output record does not agree
with its input record on all of the input record's fields, contradicting
the claim that the only change is the addition of occurrence_count. -/
theorem claim10_counterexample :
    analyze_results 1 [recWithCount] =
      [[("length", JVal.num 1), ("occurrence_count", JVal.num 1)]] ∧
    recWithCount.lookup "occurrence_count" = some (JVal.num 99) ∧
    ¬ ([("length", JVal.num 1), ("occurrence_count", JVal.num 1)] :
        PyDict).lookup "occurrence_count" =
      recWithCount.lookup "occurrence_count" := by
  refine ⟨by decide, by decide, by decide⟩

/-- Claim C10 as amended (corrected).  The output of the occurrence
filter is a subsequence of the input in input order, each output record
agreeing with its input record on every field other than
occurrence_count; the occurrence_count field is set (overwriting any
pre-existing value) to the number of input records sharing the record's
length value, which is at most the threshold. -/
theorem claim10_analyze_results_frame (occ : Int) (results : List PyDict) :
    (analyze_results occ results).Sublist
      (results.map (annotCount results)) ∧
    (∀ r' ∈ analyze_results occ results, ∃ r ∈ results,
      (∀ k, ¬ k = "occurrence_count" → r'.lookup k = r.lookup k) ∧
      r'.lookup "occurrence_count" =
        some (JVal.num (lengthCount results (lengthOf r))) ∧
      (lengthCount results (lengthOf r) : Int) ≤ occ) := by
  constructor
  · rw [analyze_results_eq]
    exact (List.filter_sublist results).map (annotCount results)
  · intro r' hr'
    obtain ⟨r, hr, hocc, rfl⟩ := (mem_analyze_results occ results r').mp hr'
    refine ⟨r, hr, ?_, ?_, hocc⟩
    · intro k hk
      exact lookup_dictSet_ne r "occurrence_count" k (JVal.num _) hk
    · exact lookup_dictSet_self r "occurrence_count" (JVal.num _)

/-- Concrete input list for the C10 witness. -/
def frameWitnessInput : List PyDict := [[("length", JVal.num 7)]]

/-- Witness for claim C10's amended theorem at a concrete input. -/
theorem claim10_witness :
    (analyze_results 2 frameWitnessInput).Sublist
      (frameWitnessInput.map (annotCount frameWitnessInput)) ∧
    (∃ r ∈ frameWitnessInput,
      (∀ k, ¬ k = "occurrence_count" →
        ([("length", JVal.num 7), ("occurrence_count", JVal.num 1)] :
          PyDict).lookup k = r.lookup k) ∧
      ([("length", JVal.num 7), ("occurrence_count", JVal.num 1)] :
        PyDict).lookup "occurrence_count" =
        some (JVal.num (lengthCount frameWitnessInput (lengthOf r))) ∧
      (lengthCount frameWitnessInput (lengthOf r) : Int) ≤ 2) :=
  ⟨(claim10_analyze_results_frame 2 frameWitnessInput).1,
   (claim10_analyze_results_frame 2 frameWitnessInput).2
     [("length", JVal.num 7), ("occurrence_count", JVal.num 1)] (by decide)⟩

/-! Characterization of the process_url core fold. -/

theorem processTech_of_empty (occ : Int) (t d : String) :
    processTech occ t d [] = [] := by
  simp [processTech, analyze_results]

theorem process_foldl_spec (occ : Int)
    (techs : List (String × String × List PyDict)) :
    ∀ acc : List PyDict × List (String × List PyDict),
    techs.foldl (processFold occ) acc =
      (acc.1 ++ (techs.map (fun x => processTech occ x.1 x.2.1 x.2.2)).flatten,
       acc.2 ++ techs.filterMap (fun x =>
         if (processTech occ x.1 x.2.1 x.2.2).isEmpty then none
         else some (x.1, processTech occ x.1 x.2.1 x.2.2))) := by
  induction techs with
  | nil => intro acc; simp
  | cons x l ih =>
    intro acc
    rw [List.foldl_cons, ih]
    by_cases h1 : x.2.2.isEmpty
    · have hx : x.2.2 = [] := List.isEmpty_iff.mp h1
      have hpt : processTech occ x.1 x.2.1 x.2.2 = [] := by
        rw [hx]; exact processTech_of_empty occ x.1 x.2.1
      have hstep : processFold occ acc x = acc := by
        simp [processFold, h1]
      rw [hstep, List.map_cons, List.flatten_cons, hpt,
        List.filterMap_cons, hpt]
      simp
    · by_cases h2 : (processTech occ x.1 x.2.1 x.2.2).isEmpty
      · have hstep : processFold occ acc x = acc := by
          simp [processFold, h1, h2]
        rw [hstep, List.map_cons, List.flatten_cons,
          List.isEmpty_iff.mp h2, List.filterMap_cons,
          if_pos (by rw [List.isEmpty_iff.mp h2]; rfl)]
        simp
      · have hstep : processFold occ acc x =
            (acc.1 ++ processTech occ x.1 x.2.1 x.2.2,
             acc.2 ++ [(x.1, processTech occ x.1 x.2.1 x.2.2)]) := by
          simp [processFold, h1, h2]
        rw [hstep, List.map_cons, List.flatten_cons, List.filterMap_cons,
          if_neg (by simp [h2])]
        simp [List.append_assoc]

theorem process_url_core_fst (occ : Int)
    (techs : List (String × String × List PyDict)) :
    (process_url_core occ techs).1 =
      (techs.map (fun x => processTech occ x.1 x.2.1 x.2.2)).flatten := by
  unfold process_url_core
  rw [process_foldl_spec]
  simp

theorem process_url_core_snd (occ : Int)
    (techs : List (String × String × List PyDict)) :
    (process_url_core occ techs).2 =
      techs.filterMap (fun x =>
        if (processTech occ x.1 x.2.1 x.2.2).isEmpty then none
        else some (x.1, processTech occ x.1 x.2.1 x.2.2)) := by
  unfold process_url_core
  rw [process_foldl_spec]
  simp

/-! Claim C2: where the interesting-response filter is applied. -/

/-- Two technologies whose fuzzing runs each return one record of
length 5. -/
def twoTechRuns : List (String × String × List PyDict) :=
  [("a", "d1", [[("length", JVal.num 5)]]),
   ("b", "d2", [[("length", JVal.num 5)]])]

/-- Claim C2 counterexample.  With threshold 1 and two technologies each
producing one record of length 5, the claim predicts occurrence counts
computed over the union (two records of the same length, count 2 > 1,
so an empty final list), but the code filters each technology's results
separately and keeps both records. -/
theorem claim2_counterexample :
    analyze_results 1 ((twoTechRuns.map (fun x => x.2.2)).flatten) = [] ∧
    ((process_url_core 1 twoTechRuns).1).length = 2 := by
  refine ⟨by decide, by decide⟩

/-- Claim C2 as amended (corrected).  The interesting-response filter is
applied per technology, not to the combined results: a record reaches
the final list for the URL iff it comes from some technology's own
fuzzing results with an occurrence count, computed within that
technology's result list alone, at most the threshold; it is annotated
with that per-technology count, the technology and the dictionary
used. -/
theorem claim2_filter_is_per_tech (occ : Int)
    (techs : List (String × String × List PyDict)) (r' : PyDict) :
    r' ∈ (process_url_core occ techs).1 ↔
      ∃ x ∈ techs, ∃ r ∈ x.2.2,
        (lengthCount x.2.2 (lengthOf r) : Int) ≤ occ ∧
        r' = annotTechRec x.1 x.2.1 (annotCount x.2.2 r) := by
  rw [process_url_core_fst]
  rw [List.mem_flatten]
  constructor
  · rintro ⟨l, hl, hr'⟩
    obtain ⟨x, hx, rfl⟩ := List.mem_map.mp hl
    obtain ⟨a, ha, rfl⟩ := List.mem_map.mp hr'
    obtain ⟨r, hr, hocc, rfl⟩ := (mem_analyze_results occ x.2.2 a).mp ha
    exact ⟨x, hx, r, hr, hocc, rfl⟩
  · rintro ⟨x, hx, r, hr, hocc, rfl⟩
    refine ⟨processTech occ x.1 x.2.1 x.2.2, List.mem_map_of_mem _ hx, ?_⟩
    exact List.mem_map_of_mem _
      ((mem_analyze_results occ x.2.2 _).mpr ⟨r, hr, hocc, rfl⟩)

/-- One technology with one record, for the C2 witness. -/
def oneTechRun : List (String × String × List PyDict) :=
  [("a", "d1", [[("length", JVal.num 5)]])]

/-- Witness for claim C2's amended theorem at a concrete input. -/
theorem claim2_witness :
    ([("length", JVal.num 5), ("occurrence_count", JVal.num 1),
      ("tech", JVal.str "a"), ("dict_used", JVal.str "d1")] : PyDict) ∈
      (process_url_core 1 oneTechRun).1 :=
  (claim2_filter_is_per_tech 1 oneTechRun _).mpr
    ⟨("a", "d1", [[("length", JVal.num 5)]]), by decide,
     [("length", JVal.num 5)], by decide, by decide, by decide⟩

/-! Claim C7: internal consistency of the saved output. -/

theorem lookup_tech_processTech (occ : Int) (t d : String)
    (rs : List PyDict) (r' : PyDict) (h : r' ∈ processTech occ t d rs) :
    r'.lookup "tech" = some (JVal.str t) := by
  obtain ⟨a, _, rfl⟩ := List.mem_map.mp h
  unfold annotTechRec
  rw [lookup_dictSet_ne _ "dict_used" "tech" _ (by decide),
    lookup_dictSet_self]

theorem filter_tag_nil_of_not_mem (t : String)
    (B : List (String × List PyDict))
    (htag : ∀ p ∈ B, ∀ r ∈ p.2, r.lookup "tech" = some (JVal.str p.1))
    (hnot : ∀ p ∈ B, ¬ p.1 = t) :
    ((B.map (fun p => p.2)).flatten.filter
      (fun r => r.lookup "tech" == some (JVal.str t))) = [] := by
  induction B with
  | nil => simp
  | cons p B' ih =>
    rw [List.map_cons, List.flatten_cons, List.filter_append]
    have h1 : p.2.filter (fun r => r.lookup "tech" == some (JVal.str t)) = [] := by
      apply List.filter_eq_nil_iff.mpr
      intro r hr
      have := htag p (by simp) r hr
      simp [this, hnot p (by simp)]
    rw [h1, List.nil_append]
    exact ih (fun q hq => htag q (by simp [hq]))
      (fun q hq => hnot q (by simp [hq]))

theorem filter_tag_flatten_length (t : String) (l : List PyDict)
    (B : List (String × List PyDict))
    (htag : ∀ p ∈ B, ∀ r ∈ p.2, r.lookup "tech" = some (JVal.str p.1))
    (hnd : (B.map (fun p => p.1)).Nodup)
    (hmem : (t, l) ∈ B) :
    ((B.map (fun p => p.2)).flatten.filter
      (fun r => r.lookup "tech" == some (JVal.str t))).length = l.length := by
  induction B with
  | nil => simp at hmem
  | cons p B' ih =>
    rw [List.map_cons, List.flatten_cons, List.filter_append]
    rw [List.map_cons, List.nodup_cons] at hnd
    rcases List.mem_cons.mp hmem with heq | hmem'
    · subst heq
      have h1 : l.filter (fun r => r.lookup "tech" == some (JVal.str t)) = l := by
        apply List.filter_eq_self.mpr
        intro r hr
        simp [htag (t, l) (by simp) r hr]
      have h2 : ((B'.map (fun p => p.2)).flatten.filter
          (fun r => r.lookup "tech" == some (JVal.str t))) = [] := by
        apply filter_tag_nil_of_not_mem t B'
          (fun q hq => htag q (by simp [hq]))
        intro q hq hqt
        exact hnd.1 (hqt ▸ List.mem_map_of_mem (fun p => p.1) hq)
      rw [h1, h2]
      simp
    · have hpt : ¬ p.1 = t := by
        intro hpt
        have : t ∈ B'.map (fun p => p.1) :=
          List.mem_map.mpr ⟨(t, l), hmem', rfl⟩
        exact hnd.1 (hpt ▸ this)
      have h1 : p.2.filter (fun r => r.lookup "tech" == some (JVal.str t)) = [] := by
        apply List.filter_eq_nil_iff.mpr
        intro r hr
        simp [htag p (by simp) r hr, hpt]
      rw [h1, List.nil_append]
      exact ih (fun q hq => htag q (by simp [hq])) hnd.2 hmem'

theorem sum_filterMap_nonempty_length (B : List (String × List PyDict)) :
    (((B.filterMap (fun p => if p.2.isEmpty then none else some p)).map
      (fun p => p.2.length)).sum) =
      ((B.map (fun p => p.2)).flatten).length := by
  induction B with
  | nil => rfl
  | cons p B' ih =>
    rw [List.filterMap_cons, List.map_cons, List.flatten_cons]
    by_cases h : p.2.isEmpty
    · rw [if_pos h, List.isEmpty_iff.mp h]
      simpa using ih
    · rw [if_neg h]
      simp only [List.map_cons, List.sum_cons, List.length_append, ih]

theorem mem_of_mem_filterMap_nonempty (B : List (String × List PyDict))
    (q : String × List PyDict)
    (h : q ∈ B.filterMap (fun p => if p.2.isEmpty then none else some p)) :
    q ∈ B ∧ ¬ q.2.isEmpty := by
  obtain ⟨p, hp, hfp⟩ := List.mem_filterMap.mp h
  by_cases he : p.2.isEmpty
  · rw [if_pos he] at hfp
    exact absurd hfp (by simp)
  · rw [if_neg he] at hfp
    obtain rfl := Option.some.injEq _ _ ▸ hfp
    exact ⟨hp, he⟩

theorem mem_filterMap_nonempty_of (B : List (String × List PyDict))
    (q : String × List PyDict) (hq : q ∈ B) (hne : ¬ q.2.isEmpty) :
    q ∈ B.filterMap (fun p => if p.2.isEmpty then none else some p) :=
  List.mem_filterMap.mpr ⟨q, hq, by rw [if_neg hne]⟩

/-- Claim C7 (confirmed).  For every saved output produced from the
state process_url accumulates (over distinct detected technologies, as
iterated from a Python set): each per-technology count in
results_by_tech equals the number of records of the results list whose
tech annotation is that technology, the counts sum to the length of the
results list, and technologies_detected holds exactly the technologies
annotating at least one record. -/
theorem claim7_saved_output_consistent (url mode : String) (occ : Int)
    (techs : List (String × String × List PyDict))
    (hnd : (techs.map (fun x => x.1)).Nodup) :
    (∀ y ∈ (save_results url mode occ
        (process_url_core occ techs)).results_by_tech,
      y.2 = ((save_results url mode occ
          (process_url_core occ techs)).results.filter
        (fun r => r.lookup "tech" == some (JVal.str y.1))).length) ∧
    (((save_results url mode occ
        (process_url_core occ techs)).results_by_tech.map
      (fun y => y.2)).sum =
      (save_results url mode occ (process_url_core occ techs)).results.length) ∧
    (∀ t, t ∈ (save_results url mode occ
        (process_url_core occ techs)).technologies_detected ↔
      ∃ r ∈ (save_results url mode occ (process_url_core occ techs)).results,
        r.lookup "tech" = some (JVal.str t)) := by
  have hB1 : (process_url_core occ techs).1 =
      ((techs.map (fun x => (x.1, processTech occ x.1 x.2.1 x.2.2))).map
        (fun p => p.2)).flatten := by
    rw [process_url_core_fst, List.map_map]
    rfl
  have hB2 : (process_url_core occ techs).2 =
      (techs.map (fun x => (x.1, processTech occ x.1 x.2.1 x.2.2))).filterMap
        (fun p => if p.2.isEmpty then none else some p) := by
    rw [process_url_core_snd, List.filterMap_map]
    rfl
  have htagB : ∀ p ∈ techs.map (fun x => (x.1, processTech occ x.1 x.2.1 x.2.2)),
      ∀ r ∈ p.2, r.lookup "tech" = some (JVal.str p.1) := by
    intro p hp r hr
    obtain ⟨x, _, rfl⟩ := List.mem_map.mp hp
    exact lookup_tech_processTech occ x.1 x.2.1 x.2.2 r hr
  have hndB : ((techs.map (fun x => (x.1, processTech occ x.1 x.2.1 x.2.2))).map
      (fun p => p.1)).Nodup := by
    rw [List.map_map]
    exact hnd
  refine ⟨?_, ?_, ?_⟩
  · intro y hy
    simp only [save_results] at hy ⊢
    rw [hB2] at hy
    obtain ⟨q, hq, rfl⟩ := List.mem_map.mp hy
    obtain ⟨hqB, _⟩ := mem_of_mem_filterMap_nonempty _ q hq
    rw [hB1]
    exact (filter_tag_flatten_length q.1 q.2 _ htagB hndB hqB).symm
  · simp only [save_results]
    rw [hB1, hB2, List.map_map]
    exact sum_filterMap_nonempty_length _
  · intro t
    simp only [save_results]
    rw [hB1, hB2]
    constructor
    · intro ht
      obtain ⟨q, hq, rfl⟩ := List.mem_map.mp ht
      obtain ⟨hqB, hne⟩ := mem_of_mem_filterMap_nonempty _ q hq
      obtain ⟨r, hr⟩ := List.exists_mem_of_ne_nil q.2
        (fun h => hne (by simp [h]))
      refine ⟨r, List.mem_flatten.mpr
        ⟨q.2, List.mem_map_of_mem (fun p => p.2) hqB, hr⟩, ?_⟩
      exact htagB q hqB r hr
    · rintro ⟨r, hr, htech⟩
      obtain ⟨l, hl, hrl⟩ := List.mem_flatten.mp hr
      obtain ⟨p, hp, rfl⟩ := List.mem_map.mp hl
      have hpt : some (JVal.str t) = some (JVal.str p.1) := by
        have h1 := htagB p hp r hrl
        rw [htech] at h1
        exact h1
      have hpt' : p.1 = t := by
        injection hpt with hpt2
        injection hpt2 with hpt3
        exact hpt3.symm
      have hne : ¬ p.2.isEmpty := by
        intro h
        rw [List.isEmpty_iff.mp h] at hrl
        simp at hrl
      exact hpt' ▸ List.mem_map_of_mem (fun p => p.1)
        (mem_filterMap_nonempty_of _ p hp hne)

/-- Witness for claim C7's theorem at a concrete input with two
distinct technologies. -/
theorem claim7_witness :
    ((save_results "http://x" "long" 1
        (process_url_core 1 twoTechRuns)).results_by_tech.map
      (fun y => y.2)).sum =
      (save_results "http://x" "long" 1
        (process_url_core 1 twoTechRuns)).results.length :=
  (claim7_saved_output_consistent "http://x" "long" 1 twoTechRuns
    (by decide)).2.1

/-! Lemmas about the dictionary loader. -/

theorem parse_ty_short_or_long (f k ty : String)
    (h : parseDictFileName f = some (k, ty)) :
    ty = "short" ∨ ty = "long" := by
  simp only [parseDictFileName] at h
  split at h
  · simp only [Option.some.injEq, Prod.mk.injEq] at h
    exact Or.inl h.2.symm
  · split at h
    · simp only [Option.some.injEq, Prod.mk.injEq] at h
      exact Or.inr h.2.symm
    · exact absurd h (by simp)

theorem getMode_setModeEntry (d : TechDicts) (ty0 p ty : String)
    (h : ty0 = "short" ∨ ty0 = "long") :
    getMode (setModeEntry d ty0 p) ty =
      if ty = ty0 then some p else getMode d ty := by
  rcases h with h | h
  all_goals subst h
  all_goals unfold getMode setModeEntry
  all_goals by_cases h1 : ty = "short"
  all_goals by_cases h2 : ty = "long"
  all_goals simp_all

theorem lookup_setInMap (m : List (String × TechDicts)) (k0 ty p k : String) :
    (setInMap m k0 ty p).lookup k =
      if k = k0 then
        Option.map (fun d => setModeEntry d ty p) (m.lookup k)
      else m.lookup k := by
  induction m with
  | nil => by_cases hk : k = k0 <;> simp [setInMap, hk]
  | cons e m' ih =>
    obtain ⟨k1, d⟩ := e
    unfold setInMap at ih ⊢
    by_cases h1 : k1 = k0
    · subst h1
      by_cases hk : k = k1
      · subst hk
        simp [List.lookup_cons]
      · have hbk : (k == k1) = false := by simpa [beq_iff_eq] using hk
        simp [List.lookup_cons, hbk, hk, ih]
    · cases hab : (k == k1) with
      | true =>
        have hk : k = k1 := by simpa [beq_iff_eq] using hab
        subst hk
        simp [List.lookup_cons, if_neg h1, h1, ih]
      | false =>
        have hk : ¬ k = k1 := by simpa [beq_iff_eq] using hab
        simp [List.lookup_cons, if_neg h1, hab, ih]

theorem lookup_reg (m : List (String × TechDicts)) (tech k : String) :
    ((if (m.lookup tech).isSome then m
      else m ++ [(tech, (⟨none, none⟩ : TechDicts))]).lookup k) =
      match m.lookup k with
      | some d => some d
      | none => if (m.lookup tech).isSome then none
                else if k = tech then some (⟨none, none⟩ : TechDicts) else none := by
  by_cases hmem : (m.lookup tech).isSome
  · rw [if_pos hmem, if_pos hmem]
    cases m.lookup k <;> simp
  · rw [if_neg hmem, if_neg hmem]
    rw [lookup_append]
    cases m.lookup k with
    | some d => simp
    | none =>
      by_cases hk : k = tech
      · subst hk
        simp [List.lookup_cons]
      · have hbk : (k == tech) = false := by simpa [beq_iff_eq] using hk
        simp [List.lookup_cons, hbk, hk]


theorem lookup_loadStep_isSome (mode : String) (m : List (String × TechDicts))
    (f k : String) :
    ((loadStep mode m f).lookup k).isSome = true ↔
      ((m.lookup k).isSome = true ∨
        ∃ ty, parseDictFileName f = some (k, ty)) := by
  cases hp : parseDictFileName f with
  | none => simp [loadStep, hp]
  | some pr =>
    obtain ⟨tech, dtype⟩ := pr
    have hR : (∃ ty, (some (tech, dtype) : Option (String × String)) =
        some (k, ty)) ↔ tech = k := by
      constructor
      · rintro ⟨ty, hty⟩
        simp only [Option.some.injEq, Prod.mk.injEq] at hty
        exact hty.1
      · rintro rfl
        exact ⟨dtype, rfl⟩
    rw [hR]
    simp only [loadStep, hp]
    have hm1 : ((if (m.lookup tech).isSome = true then m
        else m ++ [(tech, (⟨none, none⟩ : TechDicts))]).lookup k).isSome = true ↔
        ((m.lookup k).isSome = true ∨ tech = k) := by
      rw [lookup_reg]
      cases hm : m.lookup k with
      | some d => simp
      | none =>
        by_cases hs : (m.lookup tech).isSome = true
        · simp only [if_pos hs]
          constructor
          · intro h
            simp at h
          · rintro (h | rfl)
            · simp at h
            · exact absurd hs (by simp [hm])
        · simp only [if_neg hs]
          by_cases hk : k = tech
          · rw [if_pos hk]
            exact iff_of_true (by simp) (Or.inr hk.symm)
          · rw [if_neg hk]
            have hkt : ¬ tech = k := fun h => hk h.symm
            simp [hkt]
    by_cases hcond : (dtype = mode ∨ (dtype = "long" ∧ mode = "long"))
    · rw [if_pos hcond, lookup_setInMap]
      by_cases hk : k = tech
      · rw [if_pos hk]
        cases hX : (if (m.lookup tech).isSome = true then m
            else m ++ [(tech, (⟨none, none⟩ : TechDicts))]).lookup k with
        | some d =>
          exact iff_of_true (by simp) (Or.inr hk.symm)
        | none =>
          exfalso
          have hX2 := hm1.mpr (Or.inr hk.symm)
          rw [hX] at hX2
          simp at hX2
      · rw [if_neg hk]
        rw [hm1]
    · rw [if_neg hcond]
      exact hm1

theorem getMode_empty (ty : String) :
    getMode (⟨none, none⟩ : TechDicts) ty = none := by
  unfold getMode
  split_ifs <;> rfl

theorem getMode_loadStep (mode : String) (m : List (String × TechDicts))
    (f k ty : String) :
    (∃ d, (loadStep mode m f).lookup k = some d ∧
        (getMode d ty).isSome = true) ↔
      ((∃ d, m.lookup k = some d ∧ (getMode d ty).isSome = true) ∨
       (ty = mode ∧ parseDictFileName f = some (k, mode))) := by
  cases hp : parseDictFileName f with
  | none => simp [loadStep, hp]
  | some pr =>
    obtain ⟨tech, dtype⟩ := pr
    have hty := parse_ty_short_or_long f tech dtype hp
    have hR : (ty = mode ∧ (some (tech, dtype) : Option (String × String)) =
        some (k, mode)) ↔ (ty = mode ∧ tech = k ∧ dtype = mode) := by
      constructor
      · rintro ⟨h1, h2⟩
        simp only [Option.some.injEq, Prod.mk.injEq] at h2
        exact ⟨h1, h2.1, h2.2⟩
      · rintro ⟨h1, h2, h3⟩
        exact ⟨h1, by rw [h2, h3]⟩
    rw [hR]
    simp only [loadStep, hp]
    have hm1get : (∃ d, ((if (m.lookup tech).isSome = true then m
        else m ++ [(tech, (⟨none, none⟩ : TechDicts))]).lookup k) = some d ∧
        (getMode d ty).isSome = true) ↔
        (∃ d, m.lookup k = some d ∧ (getMode d ty).isSome = true) := by
      rw [lookup_reg]
      cases hm : m.lookup k with
      | some d => simp
      | none =>
        by_cases hs : (m.lookup tech).isSome = true
        · simp [hs]
        · by_cases hk : k = tech
          · simp [hs, hk, getMode_empty]
          · simp [hs, hk]
    by_cases hcond : (dtype = mode ∨ (dtype = "long" ∧ mode = "long"))
    · have hdm : dtype = mode := by
        rcases hcond with h | ⟨h1, h2⟩
        · exact h
        · rw [h1, h2]
      rw [if_pos hcond]
      by_cases hk : k = tech
      · subst hk
        have hsome : ∃ d0, ((if (m.lookup k).isSome = true then m
            else m ++ [(k, (⟨none, none⟩ : TechDicts))]).lookup k) = some d0 ∧
            (match m.lookup k with
             | some d => d
             | none => (⟨none, none⟩ : TechDicts)) = d0 := by
          rw [lookup_reg]
          cases hm : m.lookup k with
          | some d => exact ⟨d, rfl, rfl⟩
          | none =>
            have hs : ¬ (m.lookup k).isSome = true := by simp [hm]
            exact ⟨⟨none, none⟩, by simp [hs], rfl⟩
        obtain ⟨d0, hd0, hd0v⟩ := hsome
        rw [lookup_setInMap]
        simp only [eq_self_iff_true, if_true, hd0, Option.map_some']
        have hEx : (∃ d, some (setModeEntry d0 dtype f) = some d ∧
            (getMode d ty).isSome = true) ↔
            (getMode (setModeEntry d0 dtype f) ty).isSome = true := by
          constructor
          · rintro ⟨d, hd, hg⟩
            obtain rfl : setModeEntry d0 dtype f = d := by injection hd
            exact hg
          · intro hg
            exact ⟨setModeEntry d0 dtype f, rfl, hg⟩
        rw [hEx, getMode_setModeEntry d0 dtype f ty hty]
        constructor
        · intro hg
          by_cases he : ty = dtype
          · exact Or.inr ⟨he.trans hdm, trivial, hdm⟩
          · rw [if_neg he] at hg
            cases hm : m.lookup k with
            | some d1 =>
              refine Or.inl ⟨d1, rfl, ?_⟩
              have hbb : d1 = d0 := by rw [hm] at hd0v; exact hd0v
              rw [hbb]
              exact hg
            | none =>
              exfalso
              rw [hm] at hd0v
              rw [← hd0v, getMode_empty] at hg
              simp at hg
        · rintro (⟨d1, hd1, hg⟩ | ⟨h1, _, h3⟩)
          · by_cases he : ty = dtype
            · simp [if_pos he]
            · rw [if_neg he]
              have hbb : d0 = d1 := by rw [hd1] at hd0v; exact hd0v.symm
              rw [hbb]
              exact hg
          · have he : ty = dtype := h1.trans hdm.symm
            simp [if_pos he]
      · rw [lookup_setInMap]
        rw [if_neg hk]
        rw [hm1get]
        have : ¬ (ty = mode ∧ tech = k ∧ dtype = mode) := by
          rintro ⟨_, h2, _⟩
          exact hk h2.symm
        simp [this]
    · rw [if_neg hcond]
      rw [hm1get]
      have : ¬ (ty = mode ∧ tech = k ∧ dtype = mode) := by
        rintro ⟨_, _, h3⟩
        exact hcond (Or.inl h3)
      simp [this]

theorem lookup_load_isSome (mode : String) (files : List String) :
    ∀ (m : List (String × TechDicts)) (k : String),
    (((files.foldl (loadStep mode) m).lookup k).isSome = true ↔
      ((m.lookup k).isSome = true ∨
        ∃ f ∈ files, ∃ ty, parseDictFileName f = some (k, ty))) := by
  induction files with
  | nil =>
    intro m k
    simp
  | cons f fs ih =>
    intro m k
    rw [List.foldl_cons, ih (loadStep mode m f) k, lookup_loadStep_isSome]
    simp only [List.mem_cons]
    constructor
    · rintro ((h | h) | h)
      · exact Or.inl h
      · exact Or.inr ⟨f, Or.inl rfl, h⟩
      · obtain ⟨g, hg, hty⟩ := h
        exact Or.inr ⟨g, Or.inr hg, hty⟩
    · rintro (h | ⟨g, (rfl | hg), hty⟩)
      · exact Or.inl (Or.inl h)
      · exact Or.inl (Or.inr hty)
      · exact Or.inr ⟨g, hg, hty⟩

theorem getMode_load (mode : String) (files : List String) :
    ∀ (m : List (String × TechDicts)) (k ty : String),
    ((∃ d, (files.foldl (loadStep mode) m).lookup k = some d ∧
        (getMode d ty).isSome = true) ↔
      ((∃ d, m.lookup k = some d ∧ (getMode d ty).isSome = true) ∨
       (ty = mode ∧ ∃ f ∈ files, parseDictFileName f = some (k, mode)))) := by
  induction files with
  | nil =>
    intro m k ty
    simp
  | cons f fs ih =>
    intro m k ty
    rw [List.foldl_cons, ih (loadStep mode m f) k ty, getMode_loadStep]
    simp only [List.mem_cons]
    constructor
    · rintro ((h | ⟨h1, h2⟩) | ⟨h1, h2⟩)
      · exact Or.inl h
      · exact Or.inr ⟨h1, f, Or.inl rfl, h2⟩
      · obtain ⟨g, hg, hty⟩ := h2
        exact Or.inr ⟨h1, g, Or.inr hg, hty⟩
    · rintro (h | ⟨h1, g, (rfl | hg), hty⟩)
      · exact Or.inl (Or.inl h)
      · exact Or.inl (Or.inr ⟨h1, hty⟩)
      · exact Or.inr ⟨h1, g, hg, hty⟩

/-! Claim C4: content of the technology-to-wordlist mapping. -/

/-- Claim C4 counterexample.  Loading in long mode a directory holding
only php_short.txt: the file matches the convention with technology php
and type short, and php is registered as a key, but no wordlist path is
recorded under its type — the inner dict stays empty, because the guard
of line 125 only stores files of the configured mode. -/
theorem claim4_counterexample :
    parseDictFileName "php_short.txt" = some ("php", "short") ∧
    (load_technologies "long" ["php_short.txt"]).lookup "php" =
      some (⟨none, none⟩ : TechDicts) := by
  refine ⟨by decide, by decide⟩

/-- Claim C4 as amended (corrected).  The mapping is built exactly from
the .txt files matching the naming convention: every matching file
registers its technology stem as a key; a wordlist path is recorded for
a technology under a type exactly when that type is the configured mode
and a file of that technology and mode is present (not for matching
files of the other type, which only register the key); and files not
matching the convention contribute nothing. -/
theorem claim4_load_technologies (mode : String) (files : List String) :
    (∀ k, ((load_technologies mode files).lookup k).isSome = true ↔
      ∃ f ∈ files, ∃ ty, parseDictFileName f = some (k, ty)) ∧
    (∀ k ty, (∃ d, (load_technologies mode files).lookup k = some d ∧
        (getMode d ty).isSome = true) ↔
      (ty = mode ∧ ∃ f ∈ files, parseDictFileName f = some (k, mode))) ∧
    (∀ f m, parseDictFileName f = none → loadStep mode m f = m) := by
  refine ⟨?_, ?_, ?_⟩
  · intro k
    have h := lookup_load_isSome mode files [] k
    unfold load_technologies
    simpa using h
  · intro k ty
    have h := getMode_load mode files [] k ty
    unfold load_technologies
    simpa using h
  · intro f m hf
    simp [loadStep, hf]

/-- Witness for claim C4's amended theorem at a concrete input. -/
theorem claim4_witness :
    ((load_technologies "long" ["php_long.txt"]).lookup "php").isSome = true :=
  ((claim4_load_technologies "long" ["php_long.txt"]).1 "php").mpr
    ⟨"php_long.txt", by decide, "long", by decide⟩

/-! Claim C5: are the mapping keys normalized names? -/

/-- Claim C5 counterexample.  The loader registers the raw filename stem
as the key without normalizing it: loading My_Tech_long.txt produces
the key My_Tech, which normalization would change (uppercase letters
lowered, the underscore turned into a hyphen). -/
theorem claim5_counterexample :
    ((load_technologies "long"
      ["My_Tech_long.txt"]).lookup "My_Tech").isSome = true ∧
    ¬ normalizeStr "My_Tech" = "My_Tech" := by
  refine ⟨by decide, by decide⟩

/-- Claim C5 as amended (corrected).  Keys of the mapping are the raw
technology stems of the matching filenames, taken verbatim without
normalization; consequently every key is unchanged by normalization
exactly when the dictionary directory's filename stems already are —
under that assumption on the files, every key of the loaded mapping is
a normalization fixed point. -/
theorem claim5_keys_normalized_cond (mode : String) (files : List String)
    (hnorm : ∀ f ∈ files, ∀ k ty, parseDictFileName f = some (k, ty) →
      normalizeStr k = k) :
    ∀ k, ((load_technologies mode files).lookup k).isSome = true →
      normalizeStr k = k := by
  intro k hk
  unfold load_technologies at hk
  have h1 := (lookup_load_isSome mode files [] k).mp hk
  rcases h1 with h | ⟨f, hf, ty, hty⟩
  · simp at h
  · exact hnorm f hf k ty hty

/-- Witness for claim C5's amended theorem at a concrete input. -/
theorem claim5_witness : normalizeStr "php" = "php" :=
  claim5_keys_normalized_cond "long" ["php_long.txt"]
    (by
      intro f hf k ty hp
      rw [List.mem_singleton] at hf
      subst hf
      have hpv : parseDictFileName "php_long.txt" = some ("php", "long") := by
        decide
      rw [hpv] at hp
      simp only [Option.some.injEq, Prod.mk.injEq] at hp
      rw [← hp.1]
      decide)
    "php" (by decide)

/-! Claim C8: only the configured mode's type is ever stored. -/

/-- Claim C8 (confirmed).  After loading with a configured mode, every
inner dict of the mapping stores wordlist paths only under the
configured mode's type (the guard of line 125 is equivalent to the
file's type equalling the mode), and consequently the three-branch
lookup block always returns exactly the configured mode's entry: the
fallback branches returning a wordlist of the opposite type can never
produce anything. -/
theorem claim8_single_mode_invariant (mode : String) (files : List String)
    (k : String) (d : TechDicts)
    (h : (load_technologies mode files).lookup k = some d) :
    (∀ ty, (getMode d ty).isSome = true → ty = mode) ∧
    pickDict mode d = getMode d mode := by
  have hstored : ∀ ty, (getMode d ty).isSome = true → ty = mode := by
    intro ty hty
    unfold load_technologies at h
    have h2 := (getMode_load mode files [] k ty).mp ⟨d, h, hty⟩
    rcases h2 with ⟨d0, hd0, _⟩ | ⟨h1, _⟩
    · simp at hd0
    · exact h1
  refine ⟨hstored, ?_⟩
  have hgl : getMode d "long" = d.long := rfl
  have hgs : getMode d "short" = d.short := rfl
  unfold pickDict
  by_cases hm : (getMode d mode).isSome = true
  · rw [if_pos hm]
  · rw [if_neg hm]
    have hlong : d.long = none := by
      cases hl : d.long with
      | none => rfl
      | some p =>
        exfalso
        apply hm
        have hmode : "long" = mode := hstored "long" (by rw [hgl, hl]; rfl)
        rw [← hmode, hgl, hl]
        rfl
    have hshort : d.short = none := by
      cases hs : d.short with
      | none => rfl
      | some p =>
        exfalso
        apply hm
        have hmode : "short" = mode := hstored "short" (by rw [hgs, hs]; rfl)
        rw [← hmode, hgs, hs]
        rfl
    have hgmn : getMode d mode = none := by
      cases hgm : getMode d mode with
      | none => rfl
      | some p => exact absurd (by rw [hgm]; rfl) hm
    rw [hlong, hshort, hgmn]
    simp

/-- Witness for claim C8's theorem at a concrete loaded mapping. -/
theorem claim8_witness :
    pickDict "long" (⟨none, some "php_long.txt"⟩ : TechDicts) =
      getMode (⟨none, some "php_long.txt"⟩ : TechDicts) "long" :=
  (claim8_single_mode_invariant "long" ["php_long.txt"] "php"
    ⟨none, some "php_long.txt"⟩ (by decide)).2

/-! Claim C3: semantics of the wordlist lookup. -/

theorem mem_of_lookup_techmap (m : List (String × TechDicts)) (k : String)
    (d : TechDicts) (h : m.lookup k = some d) : (k, d) ∈ m := by
  induction m with
  | nil => simp at h
  | cons e l ih =>
    obtain ⟨k1, d1⟩ := e
    cases hab : (k == k1) with
    | true =>
      have hk : k = k1 := by simpa [beq_iff_eq] using hab
      simp only [List.lookup_cons, hab] at h
      have hd : d1 = d := by injection h
      rw [← hk, ← hd]
      exact List.mem_cons_self _ _
    | false =>
      simp only [List.lookup_cons, hab] at h
      exact List.mem_cons_of_mem _ (ih h)

theorem findLoop_isSome (mode normalized : String)
    (m : List (String × TechDicts)) :
    (findLoop mode normalized m).isSome = true ↔
      ∃ e ∈ m, (normalized = e.1 ∨
        containsSeq normalized.data e.1.data = true ∨
        containsSeq e.1.data normalized.data = true) ∧
      (pickDict mode e.2).isSome = true := by
  induction m with
  | nil => simp [findLoop]
  | cons e rest ih =>
    obtain ⟨tech, d⟩ := e
    simp only [findLoop]
    by_cases h1 : normalized = tech
    · rw [if_pos h1]
      cases hpd : pickDict mode d with
      | some p =>
        exact iff_of_true rfl
          ⟨(tech, d), List.mem_cons_self _ _, Or.inl h1, by rw [hpd]; rfl⟩
      | none =>
        rw [ih]
        constructor
        · rintro ⟨e, he, hm, hp⟩
          exact ⟨e, List.mem_cons_of_mem _ he, hm, hp⟩
        · rintro ⟨e, he, hm, hp⟩
          rcases List.mem_cons.mp he with rfl | he'
          · rw [hpd] at hp
            simp at hp
          · exact ⟨e, he', hm, hp⟩
    · rw [if_neg h1]
      by_cases h2 : (containsSeq normalized.data tech.data
          || containsSeq tech.data normalized.data) = true
      · rw [if_pos h2]
        cases hpd : pickDict mode d with
        | some p =>
          refine iff_of_true rfl ⟨(tech, d), List.mem_cons_self _ _, ?_, by rw [hpd]; rfl⟩
          rcases Bool.or_eq_true_iff.mp h2 with h | h
          · exact Or.inr (Or.inl h)
          · exact Or.inr (Or.inr h)
        | none =>
          rw [ih]
          constructor
          · rintro ⟨e, he, hm, hp⟩
            exact ⟨e, List.mem_cons_of_mem _ he, hm, hp⟩
          · rintro ⟨e, he, hm, hp⟩
            rcases List.mem_cons.mp he with rfl | he'
            · rw [hpd] at hp
              simp at hp
            · exact ⟨e, he', hm, hp⟩
      · rw [if_neg h2]
        rw [ih]
        constructor
        · rintro ⟨e, he, hm, hp⟩
          exact ⟨e, List.mem_cons_of_mem _ he, hm, hp⟩
        · rintro ⟨e, he, hm, hp⟩
          rcases List.mem_cons.mp he with rfl | he'
          · exfalso
            rcases hm with hm | hm | hm
            · exact h1 hm
            · exact h2 (Bool.or_eq_true_iff.mpr (Or.inl hm))
            · exact h2 (Bool.or_eq_true_iff.mpr (Or.inr hm))
          · exact ⟨e, he', hm, hp⟩

theorem find_matching_dict_eq (mode : String) (m : List (String × TechDicts))
    (t : String) :
    find_matching_dict mode m t =
      match m.lookup (normalizeStr t) with
      | some d =>
        (match pickDict mode d with
         | some p => some p
         | none => findLoop mode (normalizeStr t) m)
      | none => findLoop mode (normalizeStr t) m := rfl

/-- Claim C3 counterexample.  With the mapping loaded in long mode from
a directory containing only php_short.txt, the detected name php
normalizes to php, which matches the technology key php exactly, yet the
lookup returns None: the key was registered by a short-mode file whose
path was never stored.  A wordlist is thus not returned exactly when a
key matches. -/
theorem claim3_counterexample :
    ((load_technologies "long" ["php_short.txt"]).lookup
      (normalizeStr "php")).isSome = true ∧
    find_matching_dict "long"
      (load_technologies "long" ["php_short.txt"]) "php" = none := by
  refine ⟨by decide, by decide⟩

/-- Claim C3 as amended (corrected).  The lookup normalizes the detected
name and returns a wordlist path exactly when some technology key both
matches the normalized name — exactly, or by substring containment in
either direction — and has a stored wordlist; an exact key match with a
stored wordlist is preferred over the scan; and when the lookup returns
None the technology is skipped: it contributes no fuzzing run. -/
theorem claim3_find_matching_dict (mode : String)
    (m : List (String × TechDicts)) (t : String) :
    ((find_matching_dict mode m t).isSome = true ↔
      ∃ e ∈ m, (normalizeStr t = e.1 ∨
        containsSeq (normalizeStr t).data e.1.data = true ∨
        containsSeq e.1.data (normalizeStr t).data = true) ∧
      (pickDict mode e.2).isSome = true) ∧
    (∀ d, m.lookup (normalizeStr t) = some d →
      (pickDict mode d).isSome = true →
      find_matching_dict mode m t = pickDict mode d) ∧
    (find_matching_dict mode m t = none →
      ∀ (ffufOf : String → List PyDict) (techs : List String),
        ¬ ∃ x ∈ techRuns mode m ffufOf techs, x.1 = t) := by
  refine ⟨?_, ?_, ?_⟩
  · rw [find_matching_dict_eq]
    cases hl : m.lookup (normalizeStr t) with
    | none =>
      dsimp only
      exact findLoop_isSome mode (normalizeStr t) m
    | some d =>
      dsimp only
      cases hpd : pickDict mode d with
      | some p =>
        dsimp only
        refine iff_of_true rfl
          ⟨(normalizeStr t, d), ?_, Or.inl rfl, by rw [hpd]; rfl⟩
        exact mem_of_lookup_techmap m (normalizeStr t) d hl
      | none =>
        dsimp only
        exact findLoop_isSome mode (normalizeStr t) m
  · intro d hl hp
    rw [find_matching_dict_eq, hl]
    dsimp only
    cases hpd : pickDict mode d with
    | some p => rfl
    | none =>
      rw [hpd] at hp
      simp at hp
  · intro hnone ffufOf techs
    rintro ⟨x, hx, hx1⟩
    obtain ⟨t', ht', hgt⟩ := List.mem_filterMap.mp hx
    cases hft : find_matching_dict mode m t' with
    | none =>
      rw [hft] at hgt
      simp at hgt
    | some dp =>
      rw [hft] at hgt
      have hxeq : x = (t', dp, ffufOf t') := by
        injection hgt with h
        exact h.symm
      rw [hxeq] at hx1
      simp only at hx1
      rw [hx1] at hft
      rw [hft] at hnone
      simp at hnone

/-- Witness for claim C3's amended theorem: an exact key match with a
stored wordlist is returned via the preference branch. -/
theorem claim3_witness :
    find_matching_dict "long" (load_technologies "long" ["php_long.txt"])
      "php" = pickDict "long" (⟨none, some "php_long.txt"⟩ : TechDicts) :=
  (claim3_find_matching_dict "long"
    (load_technologies "long" ["php_long.txt"]) "php").2.1
    ⟨none, some "php_long.txt"⟩ (by decide) (by decide)

/-! Claim C6: timeout versus missing binary. -/

/-- Claim C6 (code_bug).  The claim describes the handlers the code
carries — a timeout continues processing, a missing binary exits with
status 1 — and run_ffuf does behave exactly that way; but technology
detection never reaches its handlers: every call raises AttributeError
at line 192, where the empty string bound at line 180 receives an
.exists() call, before the try of line 214.  So on every subprocess
outcome, timeout and missing binary included, detection yields the
escaping exception instead of a gathered set or exit status 1, and the
program aborts with a traceback. -/
theorem claim6_detection_crashes_before_handlers :
    (∀ outcome : ProcResult (List (Option Json)),
      detect_technologies outcome = PyOutcome.exception "AttributeError") ∧
    run_ffuf ProcResult.timeout = Except.ok [] ∧
    run_ffuf ProcResult.notFound = Except.error 1 :=
  ⟨fun _ => rfl, rfl, rfl⟩

/-! Lemmas about containsSeq and replaceAll, toward claim C9. -/

theorem isPrefixOf_append_left (p q s : List Char)
    (h : (p ++ q).isPrefixOf s = true) : p.isPrefixOf s = true := by
  induction p generalizing s with
  | nil => simp [List.isPrefixOf]
  | cons a p ih =>
    cases s with
    | nil => simp [List.isPrefixOf] at h
    | cons b s' =>
      simp only [List.cons_append, List.isPrefixOf, Bool.and_eq_true] at h ⊢
      exact ⟨h.1, ih s' h.2⟩

theorem isPrefixOf_drop_append (p q s : List Char)
    (h : (p ++ q).isPrefixOf s = true) :
    q.isPrefixOf (s.drop p.length) = true := by
  induction p generalizing s with
  | nil => simpa using h
  | cons a p ih =>
    cases s with
    | nil => simp [List.isPrefixOf] at h
    | cons b s' =>
      simp only [List.cons_append, List.isPrefixOf, Bool.and_eq_true] at h
      simpa using ih s' h.2

theorem containsSeq_of_isPrefixOf (p s : List Char)
    (h : p.isPrefixOf s = true) : containsSeq p s = true := by
  cases s with
  | nil =>
    cases p with
    | nil => rfl
    | cons a p => simp [List.isPrefixOf] at h
  | cons c rest =>
    unfold containsSeq
    exact Bool.or_eq_true_iff.mpr (Or.inl h)

theorem containsSeq_cons (p : List Char) (c : Char) (rest : List Char)
    (h : containsSeq p rest = true) : containsSeq p (c :: rest) = true := by
  unfold containsSeq
  exact Bool.or_eq_true_iff.mpr (Or.inr h)

theorem containsSeq_of_isPrefixOf_drop (q s : List Char) (n : Nat)
    (h : q.isPrefixOf (s.drop n) = true) : containsSeq q s = true := by
  induction n generalizing s with
  | zero => exact containsSeq_of_isPrefixOf q s (by simpa using h)
  | succ n ih =>
    cases s with
    | nil =>
      cases q with
      | nil => rfl
      | cons a q => simp [List.isPrefixOf] at h
    | cons c rest =>
      exact containsSeq_cons q c rest (ih rest (by simpa using h))

theorem containsSeq_append_right (p q s : List Char)
    (h : containsSeq (p ++ q) s = true) : containsSeq q s = true := by
  induction s with
  | nil =>
    unfold containsSeq at h ⊢
    simp at h
    simp [h.2]
  | cons c rest ih =>
    unfold containsSeq at h
    rcases Bool.or_eq_true_iff.mp h with h | h
    · exact containsSeq_of_isPrefixOf_drop q (c :: rest) p.length
        (isPrefixOf_drop_append p q (c :: rest) h)
    · exact containsSeq_cons q c rest (ih h)

theorem containsSeq_append_left (p q s : List Char)
    (h : containsSeq (p ++ q) s = true) : containsSeq p s = true := by
  induction s with
  | nil =>
    unfold containsSeq at h ⊢
    simp at h
    simp [h.1]
  | cons c rest ih =>
    unfold containsSeq at h
    rcases Bool.or_eq_true_iff.mp h with h | h
    · exact containsSeq_of_isPrefixOf p (c :: rest)
        (isPrefixOf_append_left p q (c :: rest) h)
    · exact containsSeq_cons p c rest (ih h)

theorem replaceAllAux_not_contains (pat repl : List Char) (hne : ¬ pat = []) :
    ∀ (fuel : Nat) (s : List Char), containsSeq pat s = false →
      replaceAllAux pat repl fuel s = s := by
  intro fuel
  induction fuel with
  | zero => intro s _; rfl
  | succ fuel ih =>
    intro s hs
    cases s with
    | nil => rfl
    | cons c rest =>
      unfold containsSeq at hs
      have hor := Bool.or_eq_false_iff.mp hs
      have hpe : pat.isEmpty = false := by
        cases pat with
        | nil => exact absurd rfl hne
        | cons a p => rfl
      unfold replaceAllAux
      rw [if_neg (by simp [hpe]), if_neg (by simp [hor.1]), ih rest hor.2]

theorem replaceAll_not_contains (pat repl s : List Char) (hne : ¬ pat = [])
    (h : containsSeq pat s = false) : replaceAll pat repl s = s :=
  replaceAllAux_not_contains pat repl hne s.length s h

theorem mem_replaceAllAux (pat : List Char) (c : Char) :
    ∀ (fuel : Nat) (s : List Char),
      c ∈ replaceAllAux pat [] fuel s → c ∈ s := by
  intro fuel
  induction fuel with
  | zero => intro s h; exact h
  | succ fuel ih =>
    intro s h
    cases s with
    | nil => exact h
    | cons a rest =>
      unfold replaceAllAux at h
      by_cases hpe : pat.isEmpty = true
      · rw [if_pos hpe] at h
        exact h
      · rw [if_neg hpe] at h
        by_cases hpre : pat.isPrefixOf (a :: rest) = true
        · rw [if_pos hpre] at h
          rw [List.nil_append] at h
          exact List.mem_of_mem_drop (ih _ h)
        · rw [if_neg hpre] at h
          rcases List.mem_cons.mp h with rfl | h'
          · exact List.mem_cons_self _ _
          · exact List.mem_cons_of_mem _ (ih rest h')

theorem mem_replaceAll (pat s : List Char) (c : Char)
    (h : c ∈ replaceAll pat [] s) : c ∈ s :=
  mem_replaceAllAux pat c s.length s h

theorem mem_stripDashes (s : List Char) (c : Char)
    (h : c ∈ stripDashes s) : c ∈ s := by
  unfold stripDashes at h
  rw [List.mem_reverse] at h
  have h1 := (List.dropWhile_sublist (fun c => c = '-')).subset h
  rw [List.mem_reverse] at h1
  exact (List.dropWhile_sublist (fun c => c = '-')).subset h1

theorem dropWhile_dropWhile {α : Type} (p : α → Bool) (l : List α) :
    (l.dropWhile p).dropWhile p = l.dropWhile p := by
  induction l with
  | nil => rfl
  | cons a l ih =>
    by_cases h : p a = true
    · rw [List.dropWhile_cons, if_pos h, ih]
    · rw [List.dropWhile_cons, if_neg h, List.dropWhile_cons, if_neg h]

theorem head_not_of_dropWhile_fix {α : Type} (p : α → Bool) (a : α)
    (l : List α) (h : (a :: l).dropWhile p = a :: l) : p a = false := by
  cases hp : p a with
  | false => rfl
  | true =>
    exfalso
    rw [List.dropWhile_cons, if_pos hp] at h
    have hle := (List.dropWhile_sublist (l := l) p).length_le
    rw [h] at hle
    simp at hle

theorem rstrip_fix_of_dropWhile_fix (p : Char → Bool) (v : List Char)
    (hv : v.dropWhile p = v) :
    ((v.reverse.dropWhile p).reverse).dropWhile p =
      (v.reverse.dropWhile p).reverse := by
  cases v with
  | nil => rfl
  | cons a v' =>
    have hpa : p a = false := head_not_of_dropWhile_fix p a v' hv
    rw [List.reverse_cons, List.dropWhile_append]
    by_cases he : (v'.reverse.dropWhile p).isEmpty = true
    · rw [if_pos he]
      simp [List.dropWhile_cons, hpa]
    · rw [if_neg he]
      rw [List.reverse_append]
      simp only [List.reverse_cons, List.reverse_nil, List.nil_append,
        List.singleton_append]
      rw [List.dropWhile_cons, if_neg (by simp [hpa])]

theorem stripDashes_idem (l : List Char) :
    stripDashes (stripDashes l) = stripDashes l := by
  unfold stripDashes
  have h1 : (((l.dropWhile (fun c => c = '-')).reverse.dropWhile
      (fun c => c = '-')).reverse).dropWhile (fun c => c = '-') =
      ((l.dropWhile (fun c => c = '-')).reverse.dropWhile
        (fun c => c = '-')).reverse :=
    rstrip_fix_of_dropWhile_fix (fun c => c = '-') _
      (dropWhile_dropWhile (fun c => c = '-') l)
  rw [h1, List.reverse_reverse, dropWhile_dropWhile]

theorem char_toNat_ofNat (n : Nat) (h : n.isValidChar) :
    (Char.ofNat n).toNat = n := by
  simp only [Char.ofNat, dif_pos h, Char.ofNatAux, Char.toNat]
  simp [UInt32.toNat, BitVec.toNat_ofNat]

theorem toLower_toLower (c : Char) :
    Char.toLower (Char.toLower c) = Char.toLower c := by
  by_cases h : c.toNat ≥ 65 ∧ c.toNat ≤ 90
  · have h1 : Char.toLower c = Char.ofNat (c.toNat + 32) := by
      simp only [Char.toLower]
      rw [if_pos h]
    rw [h1]
    have hval : (c.toNat + 32).isValidChar := Or.inl (by omega)
    have ht := char_toNat_ofNat (c.toNat + 32) hval
    simp only [Char.toLower]
    rw [if_neg (by rw [ht]; omega)]
  · have h1 : Char.toLower c = c := by
      simp only [Char.toLower]
      rw [if_neg h]
    rw [h1, h1]

theorem hyphenize_not_space_underscore (c : Char) :
    ¬ (hyphenize c = ' ' ∨ hyphenize c = '_') := by
  unfold hyphenize
  by_cases h : c = ' ' ∨ c = '_'
  · rw [if_pos h]
    decide
  · rw [if_neg h]
    exact h

theorem hyphenize_idem (c : Char) :
    hyphenize (hyphenize c) = hyphenize c := by
  have h := hyphenize_not_space_underscore c
  rw [show hyphenize (hyphenize c) =
    (if hyphenize c = ' ' ∨ hyphenize c = '_' then '-' else hyphenize c)
    from rfl, if_neg h]

theorem toLower_hyphenize_toLower (c : Char) :
    Char.toLower (hyphenize (Char.toLower c)) = hyphenize (Char.toLower c) := by
  by_cases h : Char.toLower c = ' ' ∨ Char.toLower c = '_'
  · rw [show hyphenize (Char.toLower c) =
      (if Char.toLower c = ' ' ∨ Char.toLower c = '_' then '-'
       else Char.toLower c) from rfl, if_pos h]
    decide
  · rw [show hyphenize (Char.toLower c) =
      (if Char.toLower c = ' ' ∨ Char.toLower c = '_' then '-'
       else Char.toLower c) from rfl, if_neg h]
    exact toLower_toLower c

theorem map_fix {α : Type} (f : α → α) (l : List α)
    (h : ∀ c ∈ l, f c = c) : l.map f = l := by
  induction l with
  | nil => rfl
  | cons a l ih =>
    rw [List.map_cons, h a (List.mem_cons_self _ _),
      ih (fun c hc => h c (List.mem_cons_of_mem _ hc))]

theorem mem_normalize_chain (s : List Char) (c : Char)
    (hc : c ∈ normalizeTechName s) :
    c ∈ ((s.map Char.toLower).map hyphenize).filter (fun c => ¬ c = '.') := by
  unfold normalizeTechName at hc
  have h1 := mem_stripDashes _ _ hc
  have h2 := mem_replaceAll _ _ _ h1
  have h3 := mem_replaceAll _ _ _ h2
  have h4 := mem_replaceAll _ _ _ h3
  exact mem_replaceAll _ _ _ h4

theorem normalize_char_shape (s : List Char) (c : Char)
    (hc : c ∈ normalizeTechName s) :
    (∃ c0, c = hyphenize (Char.toLower c0)) ∧
      (decide (¬ c = '.') = true) := by
  have h := mem_normalize_chain s c hc
  rw [List.mem_filter] at h
  obtain ⟨hmem, hdot⟩ := h
  obtain ⟨c1, hc1, rfl⟩ := List.mem_map.mp hmem
  obtain ⟨c0, _, rfl⟩ := List.mem_map.mp hc1
  exact ⟨⟨c0, rfl⟩, hdot⟩

theorem normalizeTechName_idem_of_not_detect (s : List Char)
    (hfalse : containsSeq ("detect".data) (normalizeTechName s) = false) :
    normalizeTechName (normalizeTechName s) = normalizeTechName s := by
  set t := normalizeTechName s with ht
  have hshape : ∀ c ∈ t, (∃ c0, c = hyphenize (Char.toLower c0)) ∧
      (decide (¬ c = '.') = true) :=
    fun c hc => normalize_char_shape s c (ht ▸ hc)
  have hlow : t.map Char.toLower = t :=
    map_fix _ _ (fun c hc => by
      obtain ⟨⟨c0, rfl⟩, _⟩ := hshape c hc
      exact toLower_hyphenize_toLower c0)
  have hhyph : t.map hyphenize = t :=
    map_fix _ _ (fun c hc => by
      obtain ⟨⟨c0, rfl⟩, _⟩ := hshape c hc
      exact hyphenize_idem (Char.toLower c0))
  have hfil : t.filter (fun c => ¬ c = '.') = t :=
    List.filter_eq_self.mpr (fun c hc => (hshape c hc).2)
  have hfalse2 : containsSeq ("detection".data) t = false := by
    cases hb : containsSeq ("detection".data) t
    · rfl
    · exfalso
      have hsplit : ("detect".data) ++ ("ion".data) = ("detection".data) := by
        decide
      have hcon := containsSeq_append_left ("detect".data) ("ion".data) t
        (by rw [hsplit]; exact hb)
      exact absurd (hfalse ▸ hcon) (by decide)
  have hfalse3 : containsSeq ("-detect".data) t = false := by
    cases hb : containsSeq ("-detect".data) t
    · rfl
    · exfalso
      have hsplit : (['-'] : List Char) ++ ("detect".data) = ("-detect".data) := by
        decide
      have hcon := containsSeq_append_right (['-'] : List Char) ("detect".data) t
        (by rw [hsplit]; exact hb)
      exact absurd (hfalse ▸ hcon) (by decide)
  have hfalse4 : containsSeq ("-detection".data) t = false := by
    cases hb : containsSeq ("-detection".data) t
    · rfl
    · exfalso
      have hsplit : ("-detect".data) ++ ("ion".data) = ("-detection".data) := by
        decide
      have hcon := containsSeq_append_left ("-detect".data) ("ion".data) t
        (by rw [hsplit]; exact hb)
      exact absurd (hfalse3 ▸ hcon) (by decide)
  have hd1 : replaceAll ("detect".data) [] t = t :=
    replaceAll_not_contains _ [] t (by decide) hfalse
  have hd2 : replaceAll ("detection".data) [] t = t :=
    replaceAll_not_contains _ [] t (by decide) hfalse2
  have hd3 : replaceAll ("-detect".data) [] t = t :=
    replaceAll_not_contains _ [] t (by decide) hfalse3
  have hd4 : replaceAll ("-detection".data) [] t = t :=
    replaceAll_not_contains _ [] t (by decide) hfalse4
  have hstrip : stripDashes t = t := by
    rw [ht]
    unfold normalizeTechName
    exact stripDashes_idem _
  unfold normalizeTechName
  rw [hlow, hhyph, hfil, hd1, hd2, hd3, hd4, hstrip]

/-! Claim C9: is normalization idempotent? -/

/-- Claim C9 counterexample.  Normalization is not idempotent: deleting
the occurrences of "detect" can splice surrounding characters into a new
"detect".  On "detdetectect" the first normalization deletes the inner
"detect" and leaves exactly "detect"; normalizing again deletes it and
leaves the empty string. -/
theorem claim9_counterexample :
    normalizeStr "detdetectect" = "detect" ∧
    normalizeStr (normalizeStr "detdetectect") = "" ∧
    ¬ normalizeStr (normalizeStr "detdetectect") =
      normalizeStr "detdetectect" := by
  refine ⟨by decide, by decide, by decide⟩

/-- Claim C9 as amended (corrected).  Normalization is idempotent on
every string whose normalized form does not contain "detect" as a
substring (deleting "detect" occurrences can reconstruct a new one, and
only then can the second pass differ); in particular the second
normalization applied during wordlist lookup leaves such already
normalized names unchanged. -/
theorem claim9_normalize_idem_cond (s : String)
    (h : ¬ containsSeq ("detect".data) (normalizeStr s).data = true) :
    normalizeStr (normalizeStr s) = normalizeStr s := by
  have hfalse : containsSeq ("detect".data) (normalizeTechName s.data) = false := by
    cases hb : containsSeq ("detect".data) (normalizeTechName s.data)
    · rfl
    · exact absurd hb h
  show String.mk (normalizeTechName
    (String.mk (normalizeTechName s.data)).data) =
    String.mk (normalizeTechName s.data)
  exact congrArg String.mk
    (normalizeTechName_idem_of_not_detect s.data hfalse)

/-- Witness for claim C9's amended theorem at a concrete input. -/
theorem claim9_witness :
    normalizeStr (normalizeStr "Apache Tomcat") = normalizeStr "Apache Tomcat" :=
  claim9_normalize_idem_cond "Apache Tomcat" (by decide)
